import Mathlib

/-!
Verification of the PRK C++11/CUDA matrix-transpose benchmark
(`Cxx11/transpose-cuda.cu`), shallowly embedded in Lean.

Buffers of `double` are modelled as total functions `ℕ → ℚ` with exact
rational arithmetic: every value the benchmark computes is an integer (or a
half-integer produced by `iterations/2.`) well inside the range where
`double` arithmetic is exact.  A kernel launch is modelled as a fold of the
per-thread state transformer over the list of launched thread coordinates;
independence of the fold order is proved, not assumed.
-/

namespace PRK

/-- A flat buffer of doubles, modelled as exact rationals indexed by `ℕ`. -/
abbrev Buf := ℕ → ℚ

/-- The pair of device buffers: `A` (the source matrix, incremented in place
by every launch) and `B` (the transpose accumulator). -/
@[ext]
structure State where
  A : Buf
  B : Buf

/-- One work unit (thread) of the naive `transpose` kernel (the `#else`
branch of `transpose-cuda.cu`, lines 80–89): for global coordinate
`(i, j) = (blockIdx.x*blockDim.x+threadIdx.x, blockIdx.y*blockDim.y+threadIdx.y)`,
if `i < order` and `j < order` then `B[i*order+j] += A[j*order+i]` and
`A[j*order+i] += 1.0`; otherwise the unit performs no operation. -/
def naiveThread (order : ℕ) (p : ℕ × ℕ) (s : State) : State :=
  if p.1 < order ∧ p.2 < order then
    { A := Function.update s.A (p.2 * order + p.1) (s.A (p.2 * order + p.1) + 1),
      B := Function.update s.B (p.1 * order + p.2)
             (s.B (p.1 * order + p.2) + s.A (p.2 * order + p.1)) }
  else s

/-- Execute a list of work units one after the other.  The kernel hardware
provides no ordering between units; `runThreads_perm` below shows the result
is the same for every ordering, so any fold order is a faithful model. -/
def runThreads (order : ℕ) (l : List (ℕ × ℕ)) (s : State) : State :=
  l.foldl (fun s p => naiveThread order p s) s

/-- All global thread coordinates of one naive-kernel launch with a `g × g`
grid of `ts × ts` blocks (lines 157–160 of `main`):
`(blockIdx.x*ts + threadIdx.x, blockIdx.y*ts + threadIdx.y)`. -/
def launchCoords (g ts : ℕ) : List (ℕ × ℕ) :=
  ((List.range g ×ˢ List.range g) ×ˢ (List.range ts ×ˢ List.range ts)).map
    fun q => (q.1.1 * ts + q.2.1, q.1.2 * ts + q.2.2)

/-- The net effect of one naive launch whose coordinate set covers the whole
`[0, order)²` square, as a simultaneous update: derived below
(`runThreads_cover`) from the per-thread code, never assumed. -/
def naiveSpec (order : ℕ) (s : State) : State where
  A := fun m => if m < order * order then s.A m + 1 else s.A m
  B := fun m => if m < order * order then
      s.B m + s.A (m % order * order + m / order) else s.B m

/-- Host initialization (lines 176–182): `h_a[j*order+i] = order*j+i` — that
is, `A[m] = m` for every `m < order²` — and `B` identically zero. -/
def initState (order : ℕ) : State where
  A := fun m => if m < order * order then (m : ℚ) else 0
  B := fun _ => 0

/-- Modelled from the spec: `prk::divceil` from `prk_util.h` (a header of
this repository not included under `src/`), the ceiling division used for
the grid dimension `dim3 dimGrid(prk::divceil(order,tile_size), ...)`. -/
def divceil (x y : ℕ) : ℕ := (x + y - 1) / y

/-- One naive-kernel launch as issued by `main`:
`transpose<<<dimGrid, dimBlock>>>(order, d_a, d_b)` with a `g × g` grid of
`ts × ts` blocks. -/
def launchKernel (order g ts : ℕ) (s : State) : State :=
  runThreads order (launchCoords g ts) s

/-- The whole device computation of `main` (naive variant): buffers
initialized by the host, then `iterations + 1` kernel launches
(`for (iter = 0; iter <= iterations; iter++)`). -/
def runBenchmark (order ts iterations : ℕ) : State :=
  (launchKernel order (divceil order ts) ts)^[iterations + 1] (initState order)

/-- The Validator's `addit` correction (line 216):
`(iterations+1.) * (iterations/2.)` in exact arithmetic. -/
def addit (iterations : ℕ) : ℚ := ((iterations : ℚ) + 1) * ((iterations : ℚ) / 2)

/-- The Validator's per-element analytic reference (line 222):
`ij*(1.+iterations) + addit` with `ij = i*order+j`. -/
def reference (order iterations i j : ℕ) : ℚ :=
  ((i * order + j : ℕ) : ℚ) * (1 + (iterations : ℚ)) + addit iterations

/-- The Validator's aggregate error (lines 217–225): the sum over all
`(i, j)` of `|B[j*order+i] - reference|`. -/
def abserr (order iterations : ℕ) (Bf : Buf) : ℚ :=
  ∑ j ∈ Finset.range order, ∑ i ∈ Finset.range order,
    |Bf (j * order + i) - reference order iterations i j|

/-- The validation threshold `epsilon = 1.0e-8` (line 234). -/
def epsilon : ℚ := 1 / 100000000

/-- Tile edge length of the tiled kernel variant (`const int tile_dim = 32`). -/
def tile_dim : ℕ := 32

/-- Rows per inner-loop step of the tiled variant (`const int block_rows = 8`). -/
def block_rows : ℕ := 8

/-- One inner-loop step of the tiled `transpose` kernel (the `#if TILED`
branch, lines 65–78): for thread column `x` and row `yj = y + j`,
`B[x*width + (y+j)] += A[(y+j)*width + x]` and `A[(y+j)*width + x] += 1.0`,
with no bounds check. -/
def tiledStep (width x yj : ℕ) (s : State) : State :=
  { A := Function.update s.A (yj * width + x) (s.A (yj * width + x) + 1),
    B := Function.update s.B (x * width + yj)
           (s.B (x * width + yj) + s.A (yj * width + x)) }

/-- One thread of the tiled kernel: the inner loop
`for (j = 0; j < tile_dim; j += block_rows)` over `j ∈ {0, 8, 16, 24}`. -/
def tiledThread (width : ℕ) (p : ℕ × ℕ) (s : State) : State :=
  (List.range' 0 (tile_dim / block_rows) block_rows).foldl
    (fun s jo => tiledStep width p.1 (p.2 + jo) s) s

/-- The block/thread index space of one tiled launch: grid `g × g`, block
`tile_dim × block_rows` (`dim3 dimGrid(order/tile_dim, order/tile_dim, 1);
dim3 dimBlock(tile_dim, block_rows, 1)`). -/
def tiledGrid (g : ℕ) : List ((ℕ × ℕ) × ℕ × ℕ) :=
  (List.range g ×ˢ List.range g) ×ˢ (List.range tile_dim ×ˢ List.range block_rows)

/-- One launch of the tiled kernel, with `width = gridDim.x * tile_dim`
exactly as the kernel computes it. -/
def tiledLaunch (g : ℕ) (s : State) : State :=
  (tiledGrid g).foldl
    (fun s q => tiledThread (g * tile_dim)
       (q.1.1 * tile_dim + q.2.1, q.1.2 * tile_dim + q.2.2) s) s

/-- The flattened per-step coordinates `(x, y + j)` touched by a tiled
launch. -/
def tiledCoords (g : ℕ) : List (ℕ × ℕ) :=
  (tiledGrid g ×ˢ List.range' 0 (tile_dim / block_rows) block_rows).map
    fun q => (q.1.1.1 * tile_dim + q.1.2.1, q.1.1.2 * tile_dim + q.1.2.2 + q.2)

deriving instance DecidableEq for Except

/-- C whitespace, as skipped by `std::atoi`. -/
def isSpaceChar (c : Char) : Bool :=
  c = ' ' || c = '\t' || c = '\n' || c = '\x0b' || c = '\x0c' || c = '\r'

/-- Value of the longest leading digit run, accumulated left to right. -/
def digitsVal : List Char → ℕ → ℕ
  | c :: cs, acc => if c.isDigit then digitsVal cs (acc * 10 + (c.toNat - 48)) else acc
  | [], acc => acc

/-- Modelled from the spec: `std::atoi` (C standard library, used for
`argv[1..3]`) — skip leading whitespace, read an optional sign, then the
longest digit prefix; a string with no digit prefix yields `0`. -/
def atoi (s : String) : ℤ :=
  match s.data.dropWhile isSpaceChar with
  | [] => 0
  | c :: cs =>
    if c = '-' then -(digitsVal cs 0 : ℤ)
    else if c = '+' then (digitsVal cs 0 : ℤ)
    else (digitsVal (c :: cs) 0 : ℤ)

/-- The validated configuration produced by `main`'s argument block
(lines 106–144, naive path). -/
structure Config where
  iterations : ℤ
  order : ℤ
  tile_size : ℤ
  tileWarn : Bool
deriving DecidableEq

/-- Clamping of a supplied tile size (lines 133–134):
`if (tile_size <= 0) tile_size = order; if (tile_size > order) tile_size = order;`. -/
def clampTile (order t : ℤ) : ℤ :=
  if t ≤ 0 then order else if order < t then order else t

/-- `main`'s argument validation (naive path, lines 106–149): usage check,
`iterations >= 1`, `0 < order <= maxMatrix` (where `maxMatrix` stands for
`prk::get_max_matrix_size()`, an implementation-defined ceiling from the
`prk_util.h` header that is not under `src/`), then tile-size defaulting,
clamping, and the post-clamp `tile_size > 32` warning. -/
def parseArgs (maxMatrix : ℤ) (argv : List String) : Except String Config :=
  if argv.length < 3 then .error "Usage: <# iterations> <matrix order>"
  else
    let iterations := atoi (argv.getD 1 "")
    if iterations < 1 then .error "ERROR: iterations must be >= 1"
    else
      let order := atoi (argv.getD 2 "")
      if order ≤ 0 then .error "ERROR: Matrix Order must be greater than 0"
      else if maxMatrix < order then .error "ERROR: matrix dimension too large - overflow risk"
      else if 3 < argv.length then
        let ts := clampTile order (atoi (argv.getD 3 ""))
        .ok ⟨iterations, order, ts, decide (32 < ts)⟩
      else .ok ⟨iterations, order, 32, false⟩

/-- `main`'s argument validation in the `TILED` configuration
(lines 106–127): the same usage / iterations / order checks; instead of any
tile-size handling it prints a warning — without failing — exactly when
`order % tile_dim != 0`.  Returns `(iterations, order, warned)`. -/
def parseArgsTiled (maxMatrix : ℤ) (argv : List String) : Except String (ℤ × ℤ × Bool) :=
  if argv.length < 3 then .error "Usage: <# iterations> <matrix order>"
  else
    let iterations := atoi (argv.getD 1 "")
    if iterations < 1 then .error "ERROR: iterations must be >= 1"
    else
      let order := atoi (argv.getD 2 "")
      if order ≤ 0 then .error "ERROR: Matrix Order must be greater than 0"
      else if maxMatrix < order then .error "ERROR: matrix dimension too large - overflow risk"
      else .ok (iterations, order, decide (¬ order % 32 = 0))

/-- Observable classification of the result analysis (lines 234–254). -/
inductive Report where
  | validates
  | failed (err thr : ℚ)
deriving DecidableEq

/-- Observable outcome of one program run: exit code, number of kernel
launches issued, whether buffers were allocated, the input-error message if
any, and the validation report. -/
structure ProgResult where
  exitCode : ℕ
  launches : ℕ
  allocated : Bool
  errMsg : Option String
  report : Option Report
deriving DecidableEq

/-- Outcome of an input-validation failure (the `catch` block, lines
146–149): message printed, exit code `1`, nothing allocated, nothing
launched. -/
def errResult (msg : String) : ProgResult :=
  { exitCode := 1, launches := 0, allocated := false, errMsg := some msg, report := none }

/-- The whole program (naive path): validate arguments; on failure exit `1`
with nothing allocated or launched; otherwise allocate, initialize, run the
`iterations + 1` launch cycles, compute the aggregate error and classify it
against `epsilon` (lines 106–257). -/
def progRun (maxMatrix : ℤ) (argv : List String) : ProgResult :=
  match parseArgs maxMatrix argv with
  | .error msg => errResult msg
  | .ok cfg =>
    let order := cfg.order.toNat
    let iters := cfg.iterations.toNat
    let err := abserr order iters (runBenchmark order cfg.tile_size.toNat iters).B
    if err < epsilon then
      { exitCode := 0, launches := iters + 1, allocated := true,
        errMsg := none, report := some .validates }
    else
      { exitCode := 1, launches := iters + 1, allocated := true,
        errMsg := none, report := some (.failed err epsilon) }

/-- Host-side events of the timing loop. -/
inductive Event where
  | launch
  | sync
  | timerStart
  | timerStop
deriving DecidableEq

/-- One iteration of `main`'s loop (lines 190–201): when `iter == 1`, first
synchronize and start the wall-clock timer (`trans_time = prk::wtime()`);
then launch the kernel and synchronize. -/
def loopBody (iter : ℕ) : List Event :=
  (if iter = 1 then [Event.sync, Event.timerStart] else [])
    ++ [Event.launch, Event.sync]

/-- The event trace of `main`'s timing section:
`for (iter = 0; iter <= iterations; iter++)` followed by reading the timer
(`trans_time = prk::wtime() - trans_time`, line 202). -/
def mainTrace (iterations : ℕ) : List Event :=
  ((List.range (iterations + 1)).flatMap loopBody) ++ [Event.timerStop]

/-- The steady-state portion: `n` launch-then-synchronize cycles. -/
def measuredTrace (n : ℕ) : List Event :=
  (List.range n).flatMap fun _ => [Event.launch, Event.sync]

/-- The reported average time per repetition (line 238):
`trans_time / iterations`. -/
def reportedAvg (elapsed : ℚ) (iterations : ℕ) : ℚ := elapsed / (iterations : ℚ)

theorem mul_add_lt {i j a b : ℕ} (hi : i < a) (hj : j < b) : i * b + j < a * b :=
  calc i * b + j < i * b + b := by omega
  _ = (i + 1) * b := by ring
  _ ≤ a * b := Nat.mul_le_mul_right b hi

theorem idx_div {i j o : ℕ} (hj : j < o) : (i * o + j) / o = i := by
  have ho : 0 < o := Nat.lt_of_le_of_lt (Nat.zero_le j) hj
  rw [Nat.mul_comm i o, Nat.mul_add_div ho, Nat.div_eq_of_lt hj, Nat.add_zero]

theorem idx_mod {i j o : ℕ} (hj : j < o) : (i * o + j) % o = j := by
  rw [Nat.mul_comm i o, Nat.mul_add_mod, Nat.mod_eq_of_lt hj]

theorem mul_add_inj {b t b' t' ts : ℕ} (ht : t < ts) (ht' : t' < ts)
    (h : b * ts + t = b' * ts + t') : b = b' ∧ t = t' := by
  have h1 : (b * ts + t) / ts = b := idx_div ht
  have h2 : (b' * ts + t') / ts = b' := idx_div ht'
  rw [h, h2] at h1
  subst h1
  omega

/-- The only in-range unit that writes `A` at slot `m` is
`(m % order, m / order)`; it adds `1` there.  Characterization of a launch
over an arbitrary duplicate-free unit list. -/
theorem runThreads_A (order : ℕ) (l : List (ℕ × ℕ)) (hl : l.Nodup) (s : State) (m : ℕ) :
    (runThreads order l s).A m =
      if m < order * order ∧ (m % order, m / order) ∈ l then s.A m + 1 else s.A m := by
  induction l generalizing s with
  | nil => simp [runThreads]
  | cons p l ih =>
    obtain ⟨hp_notmem, hl'⟩ := List.nodup_cons.mp hl
    have hstep : runThreads order (p :: l) s = runThreads order l (naiveThread order p s) := rfl
    rw [hstep, ih hl']
    by_cases hp : p.1 < order ∧ p.2 < order
    · obtain ⟨i0, j0⟩ := p
      dsimp only at hp
      obtain ⟨hi0, hj0⟩ := hp
      have ho : 0 < order := Nat.lt_of_le_of_lt (Nat.zero_le _) hi0
      have hA' : (naiveThread order (i0, j0) s).A =
          Function.update s.A (j0 * order + i0) (s.A (j0 * order + i0) + 1) := by
        simp [naiveThread, hi0, hj0]
      rw [hA']
      by_cases hm : m < order * order
      · have hmod : m % order < order := Nat.mod_lt _ ho
        have hdiv : m / order < order := (Nat.div_lt_iff_lt_mul ho).mpr hm
        by_cases hpm : ((m % order : ℕ), (m / order : ℕ)) = (i0, j0)
        · have hmi : m % order = i0 := (Prod.mk.injEq _ _ _ _).mp hpm |>.1
          have hmj : m / order = j0 := (Prod.mk.injEq _ _ _ _).mp hpm |>.2
          have hm_eq : m = j0 * order + i0 := by
            rw [← hmi, ← hmj]
            exact (Nat.div_add_mod' m order).symm
          have hnotl : ¬ ((m % order : ℕ), (m / order : ℕ)) ∈ l := by
            rw [hpm]; exact hp_notmem
          rw [if_neg (by tauto), if_pos ⟨hm, by simp [hpm]⟩, hm_eq, Function.update_same]
        · have hm_ne : m ≠ j0 * order + i0 := by
            intro he
            apply hpm
            have h1 : (j0 * order + i0) % order = i0 := idx_mod hi0
            have h2 : (j0 * order + i0) / order = j0 := idx_div hi0
            rw [he, h1, h2]
          rw [Function.update_noteq hm_ne]
          have hmem : (((m % order : ℕ), (m / order : ℕ)) ∈ (i0, j0) :: l) ↔
              (((m % order : ℕ), (m / order : ℕ)) ∈ l) := by
            simp [List.mem_cons, hpm]
          by_cases hin : ((m % order : ℕ), (m / order : ℕ)) ∈ l
          · rw [if_pos ⟨hm, hin⟩, if_pos ⟨hm, hmem.mpr hin⟩]
          · rw [if_neg (by tauto), if_neg (by rw [not_and, hmem]; intro _; exact hin)]
      · have hb : j0 * order + i0 < order * order := mul_add_lt hj0 hi0
        have hm_ne : m ≠ j0 * order + i0 := by omega
        rw [Function.update_noteq hm_ne, if_neg (by tauto), if_neg (by tauto)]
    · have hid : naiveThread order p s = s := by simp [naiveThread, hp]
      rw [hid]
      by_cases hm : m < order * order
      · have ho : 0 < order := by
          rcases Nat.eq_zero_or_pos order with h | h
          · subst h; omega
          · exact h
        have hmod : m % order < order := Nat.mod_lt _ ho
        have hdiv : m / order < order := (Nat.div_lt_iff_lt_mul ho).mpr hm
        have hne : ((m % order : ℕ), (m / order : ℕ)) ≠ p := by
          intro he
          exact hp (by rw [← he]; exact ⟨hmod, hdiv⟩)
        simp [List.mem_cons, hne]
      · rw [if_neg (by tauto), if_neg (by tauto)]

/-- The only in-range unit that writes `B` at slot `m` is
`(m / order, m % order)`; it adds the pre-launch value of `A` at the
transposed slot `m % order * order + m / order`. -/
theorem runThreads_B (order : ℕ) (l : List (ℕ × ℕ)) (hl : l.Nodup) (s : State) (m : ℕ) :
    (runThreads order l s).B m =
      if m < order * order ∧ (m / order, m % order) ∈ l
      then s.B m + s.A (m % order * order + m / order) else s.B m := by
  induction l generalizing s with
  | nil => simp [runThreads]
  | cons p l ih =>
    obtain ⟨hp_notmem, hl'⟩ := List.nodup_cons.mp hl
    have hstep : runThreads order (p :: l) s = runThreads order l (naiveThread order p s) := rfl
    rw [hstep, ih hl']
    by_cases hp : p.1 < order ∧ p.2 < order
    · obtain ⟨i0, j0⟩ := p
      dsimp only at hp
      obtain ⟨hi0, hj0⟩ := hp
      have ho : 0 < order := Nat.lt_of_le_of_lt (Nat.zero_le _) hi0
      have hA' : (naiveThread order (i0, j0) s).A =
          Function.update s.A (j0 * order + i0) (s.A (j0 * order + i0) + 1) := by
        simp [naiveThread, hi0, hj0]
      have hB' : (naiveThread order (i0, j0) s).B =
          Function.update s.B (i0 * order + j0)
            (s.B (i0 * order + j0) + s.A (j0 * order + i0)) := by
        simp [naiveThread, hi0, hj0]
      rw [hA', hB']
      by_cases hm : m < order * order
      · have hmod : m % order < order := Nat.mod_lt _ ho
        have hdiv : m / order < order := (Nat.div_lt_iff_lt_mul ho).mpr hm
        by_cases hpm : ((m / order : ℕ), (m % order : ℕ)) = (i0, j0)
        · have hmi : m / order = i0 := (Prod.mk.injEq _ _ _ _).mp hpm |>.1
          have hmj : m % order = j0 := (Prod.mk.injEq _ _ _ _).mp hpm |>.2
          have hm_eq : m = i0 * order + j0 := by
            rw [← hmj, ← hmi]
            exact (Nat.div_add_mod' m order).symm
          rw [if_neg (by rw [not_and]; intro _ hc; exact hp_notmem (hpm ▸ hc)),
            if_pos ⟨hm, by simp [hpm]⟩, hm_eq, Function.update_same]
          have htr : (i0 * order + j0) % order * order + (i0 * order + j0) / order
              = j0 * order + i0 := by rw [idx_mod hj0, idx_div hj0]
          rw [htr]
        · have hm_ne : m ≠ i0 * order + j0 := by
            intro he
            apply hpm
            have h1 : (i0 * order + j0) % order = j0 := idx_mod hj0
            have h2 : (i0 * order + j0) / order = i0 := idx_div hj0
            rw [he, h1, h2]
          rw [Function.update_noteq hm_ne]
          have hmem : (((m / order : ℕ), (m % order : ℕ)) ∈ (i0, j0) :: l) ↔
              (((m / order : ℕ), (m % order : ℕ)) ∈ l) := by
            simp [List.mem_cons, hpm]
          by_cases hin : ((m / order : ℕ), (m % order : ℕ)) ∈ l
          · have hrd_ne : m % order * order + m / order ≠ j0 * order + i0 := by
              intro he
              obtain ⟨he1, he2⟩ := mul_add_inj hdiv hi0 he
              exact hp_notmem (by rw [← he1, ← he2]; exact hin)
            rw [if_pos ⟨hm, hin⟩, if_pos ⟨hm, hmem.mpr hin⟩, Function.update_noteq hrd_ne]
          · rw [if_neg (by tauto), if_neg (by rw [not_and, hmem]; intro _; exact hin)]
      · have hb : i0 * order + j0 < order * order := mul_add_lt hi0 hj0
        have hm_ne : m ≠ i0 * order + j0 := by omega
        rw [Function.update_noteq hm_ne, if_neg (by tauto), if_neg (by tauto)]
    · have hid : naiveThread order p s = s := by simp [naiveThread, hp]
      rw [hid]
      by_cases hm : m < order * order
      · have ho : 0 < order := by
          rcases Nat.eq_zero_or_pos order with h | h
          · subst h; omega
          · exact h
        have hmod : m % order < order := Nat.mod_lt _ ho
        have hdiv : m / order < order := (Nat.div_lt_iff_lt_mul ho).mpr hm
        have hne : ((m / order : ℕ), (m % order : ℕ)) ≠ p := by
          intro he
          exact hp (by rw [← he]; exact ⟨hdiv, hmod⟩)
        simp [List.mem_cons, hne]
      · rw [if_neg (by tauto), if_neg (by tauto)]

theorem order_pos_of_lt_sq {m o : ℕ} (h : m < o * o) : 0 < o := by
  rcases Nat.eq_zero_or_pos o with h0 | h0
  · subst h0; omega
  · exact h0

theorem mod_lt_of_lt_sq {m o : ℕ} (h : m < o * o) : m % o < o :=
  Nat.mod_lt _ (order_pos_of_lt_sq h)

theorem div_lt_of_lt_sq {m o : ℕ} (h : m < o * o) : m / o < o :=
  (Nat.div_lt_iff_lt_mul (order_pos_of_lt_sq h)).mpr h

theorem mem_launchCoords {g ts : ℕ} {p : ℕ × ℕ} :
    p ∈ launchCoords g ts ↔ p.1 < g * ts ∧ p.2 < g * ts := by
  obtain ⟨p1, p2⟩ := p
  constructor
  · intro hp
    obtain ⟨q, hq, hqe⟩ := List.mem_map.mp hp
    obtain ⟨hb, ht⟩ := List.mem_product.mp hq
    obtain ⟨hb1, hb2⟩ := List.mem_product.mp hb
    obtain ⟨ht1, ht2⟩ := List.mem_product.mp ht
    rw [List.mem_range] at hb1 hb2 ht1 ht2
    obtain ⟨he1, he2⟩ := Prod.mk.injEq .. |>.mp hqe
    exact ⟨he1 ▸ mul_add_lt hb1 ht1, he2 ▸ mul_add_lt hb2 ht2⟩
  · rintro ⟨h1, h2⟩
    have hts : 0 < ts := by
      rcases Nat.eq_zero_or_pos ts with h | h
      · subst h; omega
      · exact h
    refine List.mem_map.mpr ⟨((p1 / ts, p2 / ts), (p1 % ts, p2 % ts)), ?_, ?_⟩
    · refine List.mem_product.mpr ⟨List.mem_product.mpr ⟨?_, ?_⟩,
        List.mem_product.mpr ⟨?_, ?_⟩⟩ <;> rw [List.mem_range]
      · exact (Nat.div_lt_iff_lt_mul hts).mpr h1
      · exact (Nat.div_lt_iff_lt_mul hts).mpr h2
      · exact Nat.mod_lt _ hts
      · exact Nat.mod_lt _ hts
    · show (p1 / ts * ts + p1 % ts, p2 / ts * ts + p2 % ts) = (p1, p2)
      rw [Nat.div_add_mod', Nat.div_add_mod']

theorem launchCoords_nodup (g ts : ℕ) : (launchCoords g ts).Nodup := by
  apply List.Nodup.map_on
  · rintro ⟨⟨xb1, xb2⟩, xt1, xt2⟩ hx ⟨⟨yb1, yb2⟩, yt1, yt2⟩ hy hxy
    obtain ⟨hxb, hxt⟩ := List.mem_product.mp hx
    obtain ⟨hxb1, hxb2⟩ := List.mem_product.mp hxb
    obtain ⟨hxt1, hxt2⟩ := List.mem_product.mp hxt
    obtain ⟨hyb, hyt⟩ := List.mem_product.mp hy
    obtain ⟨hyb1, hyb2⟩ := List.mem_product.mp hyb
    obtain ⟨hyt1, hyt2⟩ := List.mem_product.mp hyt
    rw [List.mem_range] at hxb1 hxb2 hxt1 hxt2 hyb1 hyb2 hyt1 hyt2
    obtain ⟨he1, he2⟩ := Prod.mk.injEq .. |>.mp hxy
    obtain ⟨hq1, hq2⟩ := mul_add_inj hxt1 hyt1 he1
    obtain ⟨hq3, hq4⟩ := mul_add_inj hxt2 hyt2 he2
    simp_all
  · exact ((List.nodup_range g).product (List.nodup_range g)).product
      ((List.nodup_range ts).product (List.nodup_range ts))

theorem runThreads_cover (order : ℕ) (l : List (ℕ × ℕ)) (hl : l.Nodup)
    (hcov : ∀ i j, i < order → j < order → (i, j) ∈ l) (s : State) :
    runThreads order l s = naiveSpec order s := by
  ext m
  · rw [runThreads_A order l hl s m]
    by_cases hm : m < order * order
    · rw [if_pos ⟨hm, hcov _ _ (mod_lt_of_lt_sq hm) (div_lt_of_lt_sq hm)⟩]
      simp [naiveSpec, hm]
    · rw [if_neg (by tauto)]
      simp [naiveSpec, hm]
  · rw [runThreads_B order l hl s m]
    by_cases hm : m < order * order
    · rw [if_pos ⟨hm, hcov _ _ (div_lt_of_lt_sq hm) (mod_lt_of_lt_sq hm)⟩]
      simp [naiveSpec, hm]
    · rw [if_neg (by tauto)]
      simp [naiveSpec, hm]

theorem iterate_A (order k m : ℕ) :
    (((naiveSpec order)^[k]) (initState order)).A m
      = if m < order * order then (m : ℚ) + k else 0 := by
  induction k with
  | zero => simp [initState]
  | succ k ih =>
    rw [Function.iterate_succ_apply']
    by_cases hm : m < order * order
    · simp only [naiveSpec, hm, if_pos, ih]
      push_cast
      ring
    · simp only [naiveSpec, hm, if_neg, ih, if_false]

theorem iterate_B (order k m : ℕ) :
    (((naiveSpec order)^[k]) (initState order)).B m
      = if m < order * order then
          (k : ℚ) * ((m % order * order + m / order : ℕ) : ℚ)
            + ((k : ℚ) * ((k : ℚ) - 1)) / 2
        else 0 := by
  induction k with
  | zero => simp [initState]
  | succ k ih =>
    rw [Function.iterate_succ_apply']
    by_cases hm : m < order * order
    · have ht : m % order * order + m / order < order * order :=
        mul_add_lt (mod_lt_of_lt_sq hm) (div_lt_of_lt_sq hm)
      simp only [naiveSpec, hm, if_pos, ih, iterate_A, ht]
      push_cast
      ring
    · simp only [naiveSpec, hm, if_neg, ih, if_false]

theorem divceil_mul_ge {x y : ℕ} (hy : 0 < y) : x ≤ divceil x y * y := by
  have h1 := Nat.div_add_mod (x + y - 1) y
  have h2 : (x + y - 1) % y < y := Nat.mod_lt _ hy
  have h3 : divceil x y * y = y * ((x + y - 1) / y) := Nat.mul_comm _ _
  rw [h3]
  omega

theorem launchKernel_eq_spec (order g ts : ℕ) (hcov : order ≤ g * ts) :
    launchKernel order g ts = naiveSpec order := by
  funext s
  apply runThreads_cover _ _ (launchCoords_nodup g ts)
  intro i j hi hj
  exact mem_launchCoords.mpr ⟨lt_of_lt_of_le hi hcov, lt_of_lt_of_le hj hcov⟩

/-- C1: for every `order ≥ 1` and `iterations ≥ 1` (and any positive tile
size), running the full cycle — `iterations + 1` kernel launches, each doing
`B[i*order+j] += A[j*order+i]` and `A[j*order+i] += 1.0` for all
`0 ≤ i, j < order`, starting from `A[j*order+i] = order*j+i` and `B = 0` —
yields a Validator aggregate error strictly below `1.0e-8`: the reference
formula accounts for all `iterations + 1` accumulation passes, warm-up
included. -/
theorem validator_error_lt_epsilon (order iterations ts : ℕ)
    (_ho : 1 ≤ order) (_hi : 1 ≤ iterations) (hts : 1 ≤ ts) :
    abserr order iterations (runBenchmark order ts iterations).B < epsilon := by
  have hcov : order ≤ divceil order ts * ts := divceil_mul_ge hts
  have key : ∀ i j, i < order → j < order →
      (runBenchmark order ts iterations).B (j * order + i)
        = reference order iterations i j := by
    intro i j hi2 hj2
    rw [runBenchmark, launchKernel_eq_spec _ _ _ hcov, iterate_B]
    have hlt : j * order + i < order * order := mul_add_lt hj2 hi2
    rw [if_pos hlt, idx_mod hi2, idx_div hi2]
    unfold reference addit
    push_cast
    ring
  have hz : abserr order iterations (runBenchmark order ts iterations).B = 0 := by
    unfold abserr
    apply Finset.sum_eq_zero
    intro j hj
    apply Finset.sum_eq_zero
    intro i hi2
    rw [key i j (Finset.mem_range.mp hi2) (Finset.mem_range.mp hj), sub_self, abs_zero]
  rw [hz]
  unfold epsilon
  norm_num

/-- Witness for C1 at `order = 2`, `iterations = 1`, `ts = 1`. -/
theorem validator_error_lt_epsilon_witness :
    abserr 2 1 (runBenchmark 2 1 1).B < epsilon :=
  validator_error_lt_epsilon 2 1 1 (by decide) (by decide) (by decide)

/-- A launch never touches any slot at or beyond `order²` of either buffer,
whatever the unit list. -/
theorem runThreads_frame (order : ℕ) (l : List (ℕ × ℕ)) (s : State) (m : ℕ)
    (hm : order * order ≤ m) :
    (runThreads order l s).A m = s.A m ∧ (runThreads order l s).B m = s.B m := by
  induction l generalizing s with
  | nil => exact ⟨rfl, rfl⟩
  | cons p l ih =>
    have hstep : runThreads order (p :: l) s
        = runThreads order l (naiveThread order p s) := rfl
    rw [hstep]
    obtain ⟨ihA, ihB⟩ := ih (naiveThread order p s)
    rw [ihA, ihB]
    by_cases hp : p.1 < order ∧ p.2 < order
    · have hb : p.1 * order + p.2 < order * order := mul_add_lt hp.1 hp.2
      have ha : p.2 * order + p.1 < order * order := mul_add_lt hp.2 hp.1
      constructor
      · show (naiveThread order p s).A m = s.A m
        simp only [naiveThread, if_pos hp]
        exact Function.update_noteq (by omega) _ _
      · show (naiveThread order p s).B m = s.B m
        simp only [naiveThread, if_pos hp]
        exact Function.update_noteq (by omega) _ _
    · simp [naiveThread, hp]

/-- C4: in the naive variant, a unit whose coordinate `(i, j)` falls outside
`[0, order)²` leaves both buffers completely unchanged; every access of an
in-range unit uses an index strictly below `order²`; and a launch with any
`g × g` grid of `ts × ts` blocks leaves every slot at or beyond `order²` of
both buffers unchanged — bounds are checked per unit, so no launch
configuration reaches out of bounds. -/
theorem naive_bounds_checked (order : ℕ) (p : ℕ × ℕ) (s : State) (g ts m : ℕ) :
    (¬(p.1 < order ∧ p.2 < order) → naiveThread order p s = s)
    ∧ (p.1 < order → p.2 < order →
        p.1 * order + p.2 < order * order ∧ p.2 * order + p.1 < order * order)
    ∧ (order * order ≤ m →
        (launchKernel order g ts s).A m = s.A m
          ∧ (launchKernel order g ts s).B m = s.B m) :=
  ⟨fun hp => by simp [naiveThread, hp],
   fun h1 h2 => ⟨mul_add_lt h1 h2, mul_add_lt h2 h1⟩,
   fun hm => runThreads_frame order (launchCoords g ts) s m hm⟩

/-- Witness for C4 at `order = 3`: the out-of-range unit `(5, 1)` is a
no-op, the in-range unit `(1, 2)` accesses only indices below `9`, and a
`2 × 2`-grid launch of `2 × 2` blocks leaves slot `9` of `A` unchanged. -/
theorem naive_bounds_checked_witness :
    naiveThread 3 (5, 1) (initState 3) = initState 3
    ∧ (1 * 3 + 2 < 3 * 3 ∧ 2 * 3 + 1 < 3 * 3)
    ∧ (launchKernel 3 2 2 (initState 3)).A 9 = (initState 3).A 9 :=
  ⟨(naive_bounds_checked 3 (5, 1) (initState 3) 2 2 9).1 (by decide),
   (naive_bounds_checked 3 (1, 2) (initState 3) 2 2 9).2.1 (by decide) (by decide),
   ((naive_bounds_checked 3 (1, 2) (initState 3) 2 2 9).2.2 (by decide)).1⟩

/-- C5: within one launch the write-target maps `(i,j) ↦ i*order+j` (into
`B`) and `(i,j) ↦ j*order+i` (into `A`) are injective on `[0, order)²`;
every slot below `order²` of each buffer is written by exactly one in-range
unit; and the launch result is independent of the order in which the units
execute. -/
theorem writes_disjoint_order_independent (order : ℕ) :
    (∀ p q : ℕ × ℕ, p.1 < order → p.2 < order → q.1 < order → q.2 < order →
       (p.1 * order + p.2 = q.1 * order + q.2 → p = q)
       ∧ (p.2 * order + p.1 = q.2 * order + q.1 → p = q))
    ∧ (∀ m, m < order * order →
        (∃! p : ℕ × ℕ, (p.1 < order ∧ p.2 < order) ∧ p.1 * order + p.2 = m)
        ∧ (∃! p : ℕ × ℕ, (p.1 < order ∧ p.2 < order) ∧ p.2 * order + p.1 = m))
    ∧ (∀ (l l' : List (ℕ × ℕ)) (s : State), l.Nodup → l.Perm l' →
        runThreads order l s = runThreads order l' s) := by
  refine ⟨?_, ?_, ?_⟩
  · intro p q hp1 hp2 hq1 hq2
    constructor
    · intro h
      obtain ⟨h1, h2⟩ := mul_add_inj hp2 hq2 h
      obtain ⟨a, b⟩ := p
      obtain ⟨c, d⟩ := q
      simp_all
    · intro h
      obtain ⟨h1, h2⟩ := mul_add_inj hp1 hq1 h
      obtain ⟨a, b⟩ := p
      obtain ⟨c, d⟩ := q
      simp_all
  · intro m hm
    constructor
    · refine ⟨(m / order, m % order),
        ⟨⟨div_lt_of_lt_sq hm, mod_lt_of_lt_sq hm⟩, Nat.div_add_mod' m order⟩, ?_⟩
      rintro ⟨a, b⟩ ⟨⟨ha, hb⟩, he⟩
      dsimp only at ha hb he
      have hda : (a * order + b) / order = a := idx_div hb
      have hdb : (a * order + b) % order = b := idx_mod hb
      rw [he] at hda hdb
      simp [hda, hdb]
    · refine ⟨(m % order, m / order),
        ⟨⟨mod_lt_of_lt_sq hm, div_lt_of_lt_sq hm⟩, Nat.div_add_mod' m order⟩, ?_⟩
      rintro ⟨a, b⟩ ⟨⟨ha, hb⟩, he⟩
      dsimp only at ha hb he
      have hda : (b * order + a) / order = b := idx_div ha
      have hdb : (b * order + a) % order = a := idx_mod ha
      rw [he] at hda hdb
      simp [hda, hdb]
  · intro l l' s hnd hperm
    have hnd' : l'.Nodup := hperm.nodup_iff.mp hnd
    ext m
    · rw [runThreads_A order l hnd s m, runThreads_A order l' hnd' s m]
      simp [hperm.mem_iff]
    · rw [runThreads_B order l hnd s m, runThreads_B order l' hnd' s m]
      simp [hperm.mem_iff]

/-- Witness for C5 at `order = 3`: injectivity at `(1, 2)`, unique writer of
slot `4`, and a two-unit launch folded in either order. -/
theorem writes_disjoint_order_independent_witness :
    ((1, 2) : ℕ × ℕ) = (1, 2)
    ∧ (∃! p : ℕ × ℕ, (p.1 < 3 ∧ p.2 < 3) ∧ p.1 * 3 + p.2 = 4)
    ∧ runThreads 3 [(0, 0), (1, 1)] (initState 3)
        = runThreads 3 [(1, 1), (0, 0)] (initState 3) :=
  ⟨((writes_disjoint_order_independent 3).1 (1, 2) (1, 2)
      (by decide) (by decide) (by decide) (by decide)).1 (by decide),
   ((writes_disjoint_order_independent 3).2.1 4 (by decide)).1,
   (writes_disjoint_order_independent 3).2.2 [(0, 0), (1, 1)] [(1, 1), (0, 0)]
      (initState 3) (by decide) (by decide)⟩

theorem tiledStep_eq_naiveThread {w x yj : ℕ} (hx : x < w) (hy : yj < w) (s : State) :
    tiledStep w x yj s = naiveThread w (x, yj) s := by
  simp [tiledStep, naiveThread, hx, hy]

theorem runThreads_append (order : ℕ) (l1 l2 : List (ℕ × ℕ)) (s : State) :
    runThreads order (l1 ++ l2) s = runThreads order l2 (runThreads order l1 s) :=
  List.foldl_append ..

theorem runThreads_flatMap {α : Type} (order : ℕ) (f : α → List (ℕ × ℕ))
    (l : List α) (s : State) :
    runThreads order (l.flatMap f) s
      = l.foldl (fun s a => runThreads order (f a) s) s := by
  induction l generalizing s with
  | nil => rfl
  | cons a l ih =>
    rw [List.flatMap_cons]
    show runThreads order (f a ++ l.flatMap f) s = _
    rw [runThreads_append, ih]
    rfl

theorem tiledCoords_flatMap (g : ℕ) :
    tiledCoords g = (tiledGrid g).flatMap fun q =>
      (List.range' 0 (tile_dim / block_rows) block_rows).map
        fun jo => (q.1.1 * tile_dim + q.2.1, q.1.2 * tile_dim + q.2.2 + jo) := by
  simp only [tiledCoords, SProd.sprod, List.product, List.map_flatMap, List.map_map]
  rfl

theorem tiledLaunch_eq_runThreads (g : ℕ) (s : State) :
    tiledLaunch g s = runThreads (g * tile_dim) (tiledCoords g) s := by
  rw [tiledCoords_flatMap, runThreads_flatMap, tiledLaunch]
  apply List.foldl_ext
  intro s' q hq
  obtain ⟨⟨bx, b2⟩, tx, ty⟩ := q
  obtain ⟨hb, ht⟩ := List.mem_product.mp hq
  obtain ⟨hb1, hb2⟩ := List.mem_product.mp hb
  obtain ⟨ht1, ht2⟩ := List.mem_product.mp ht
  rw [List.mem_range] at hb1 hb2 ht1 ht2
  rw [tiledThread, runThreads, List.foldl_map]
  apply List.foldl_ext
  intro s'' jo hjo
  obtain ⟨i, hi4, hjoe⟩ := List.mem_range'.mp hjo
  have hx : bx * tile_dim + tx < g * tile_dim := mul_add_lt hb1 ht1
  have hy : b2 * tile_dim + ty + jo < g * tile_dim := by
    simp only [tile_dim, block_rows] at hjoe hi4 ht2 ⊢
    have h1 : ty + jo < 32 := by omega
    have h2 : b2 * 32 + (ty + jo) < g * 32 := mul_add_lt hb2 h1
    omega
  exact tiledStep_eq_naiveThread hx hy s''

theorem mem_tiledCoords {g : ℕ} {p : ℕ × ℕ} :
    p ∈ tiledCoords g ↔ p.1 < g * tile_dim ∧ p.2 < g * tile_dim := by
  obtain ⟨u, v⟩ := p
  rw [tiledCoords]
  constructor
  · intro hp
    obtain ⟨q, hq, hqe⟩ := List.mem_map.mp hp
    obtain ⟨⟨⟨bx, b2⟩, tx, ty⟩, jo⟩ := q
    obtain ⟨hQ, hJ⟩ := List.mem_product.mp hq
    obtain ⟨hb, ht⟩ := List.mem_product.mp hQ
    obtain ⟨hb1, hb2⟩ := List.mem_product.mp hb
    obtain ⟨ht1, ht2⟩ := List.mem_product.mp ht
    rw [List.mem_range] at hb1 hb2 ht1 ht2
    obtain ⟨i, hi4, hjoe⟩ := List.mem_range'.mp hJ
    obtain ⟨he1, he2⟩ := Prod.mk.injEq .. |>.mp hqe
    dsimp only at he1 he2
    constructor
    · rw [← he1]
      exact mul_add_lt hb1 ht1
    · rw [← he2]
      simp only [tile_dim, block_rows] at hjoe hi4 ht2 ⊢
      have h1 : ty + jo < 32 := by omega
      have h2 : b2 * 32 + (ty + jo) < g * 32 := mul_add_lt hb2 h1
      omega
  · rintro ⟨h1, h2⟩
    refine List.mem_map.mpr
      ⟨(((u / tile_dim, v / tile_dim), (u % tile_dim, v % tile_dim % block_rows)),
          block_rows * (v % tile_dim / block_rows)), ?_, ?_⟩
    · refine List.mem_product.mpr ⟨List.mem_product.mpr
        ⟨List.mem_product.mpr ⟨?_, ?_⟩, List.mem_product.mpr ⟨?_, ?_⟩⟩, ?_⟩
      · rw [List.mem_range]
        exact (Nat.div_lt_iff_lt_mul (by norm_num [tile_dim])).mpr h1
      · rw [List.mem_range]
        exact (Nat.div_lt_iff_lt_mul (by norm_num [tile_dim])).mpr h2
      · rw [List.mem_range]
        exact Nat.mod_lt _ (by norm_num [tile_dim])
      · rw [List.mem_range]
        exact Nat.mod_lt _ (by norm_num [block_rows])
      · refine List.mem_range'.mpr ⟨v % tile_dim / block_rows, ?_, ?_⟩
        · simp only [tile_dim, block_rows]
          omega
        · simp only [tile_dim, block_rows]
          omega
    · show ((u / tile_dim) * tile_dim + u % tile_dim,
          (v / tile_dim) * tile_dim + v % tile_dim % block_rows
            + block_rows * (v % tile_dim / block_rows)) = (u, v)
      rw [Prod.mk.injEq]
      simp only [tile_dim, block_rows]
      constructor <;> omega

theorem tiledCoords_nodup (g : ℕ) : (tiledCoords g).Nodup := by
  apply List.Nodup.map_on
  · rintro ⟨⟨⟨bx, b2⟩, tx, ty⟩, jo⟩ hx ⟨⟨⟨bx', b2'⟩, tx', ty'⟩, jo'⟩ hy hxy
    obtain ⟨hQ, hJ⟩ := List.mem_product.mp hx
    obtain ⟨hb, ht⟩ := List.mem_product.mp hQ
    obtain ⟨hb1, hb2⟩ := List.mem_product.mp hb
    obtain ⟨ht1, ht2⟩ := List.mem_product.mp ht
    obtain ⟨hQ', hJ'⟩ := List.mem_product.mp hy
    obtain ⟨hb', ht'⟩ := List.mem_product.mp hQ'
    obtain ⟨hb1', hb2'⟩ := List.mem_product.mp hb'
    obtain ⟨ht1', ht2'⟩ := List.mem_product.mp ht'
    rw [List.mem_range] at hb1 hb2 ht1 ht2 hb1' hb2' ht1' ht2'
    obtain ⟨i, hi4, hjoe⟩ := List.mem_range'.mp hJ
    obtain ⟨i', hi4', hjoe'⟩ := List.mem_range'.mp hJ'
    obtain ⟨he1, he2⟩ := Prod.mk.injEq .. |>.mp hxy
    dsimp only at he1 he2
    simp only [tile_dim, block_rows] at he1 he2 hjoe hjoe' hi4 hi4' ht1 ht2 ht1' ht2'
    have hcomp : bx = bx' ∧ tx = tx' ∧ b2 = b2' ∧ ty = ty' ∧ jo = jo' := by omega
    obtain ⟨hc1, hc2, hc3, hc4, hc5⟩ := hcomp
    subst hc1
    subst hc2
    subst hc3
    subst hc4
    subst hc5
    rfl
  · exact (((List.nodup_range g).product (List.nodup_range g)).product
      ((List.nodup_range tile_dim).product (List.nodup_range block_rows))).product
      (List.nodup_range' _ _ _ (by norm_num [block_rows]))

/-- C3: when `order` is an exact multiple of `32`, one launch of the tiled
kernel (grid `(order/32)²`, block `32 × 8`, inner loop striding by `8` rows)
performs exactly the same state update as one launch of the bounds-checked
naive kernel with any covering grid: the two variants are interchangeable
strategies for the same contract. -/
theorem tiled_equals_naive (order ts : ℕ) (h32 : 32 ∣ order) (hts : 1 ≤ ts) (s : State) :
    tiledLaunch (order / 32) s = launchKernel order (divceil order ts) ts s := by
  have hw : order / 32 * tile_dim = order := by
    show order / 32 * 32 = order
    exact Nat.div_mul_cancel h32
  rw [tiledLaunch_eq_runThreads, launchKernel_eq_spec order _ ts (divceil_mul_ge hts), hw]
  apply runThreads_cover
  · exact tiledCoords_nodup _
  · intro i j hi hj
    apply mem_tiledCoords.mpr
    rw [hw]
    exact ⟨hi, hj⟩

/-- Witness for C3 at `order = 32`, `ts = 32`. -/
theorem tiled_equals_naive_witness :
    tiledLaunch (32 / 32) (initState 32)
      = launchKernel 32 (divceil 32 32) 32 (initState 32) :=
  tiled_equals_naive 32 32 (by decide) (by decide) (initState 32)

/-- C6: every bad-input case — fewer than two real arguments,
`iterations < 1`, `order <= 0`, or `order` above the overflow ceiling —
prints its message and exits with code `1` with no buffer allocated and no
kernel launched; in particular `iterations = 0`. -/
theorem input_errors_exit_early (maxMatrix : ℤ) (argv : List String) :
    (argv.length < 3 →
      progRun maxMatrix argv = errResult "Usage: <# iterations> <matrix order>")
    ∧ (3 ≤ argv.length → atoi (argv.getD 1 "") < 1 →
      progRun maxMatrix argv = errResult "ERROR: iterations must be >= 1")
    ∧ (3 ≤ argv.length → 1 ≤ atoi (argv.getD 1 "") → atoi (argv.getD 2 "") ≤ 0 →
      progRun maxMatrix argv = errResult "ERROR: Matrix Order must be greater than 0")
    ∧ (3 ≤ argv.length → 1 ≤ atoi (argv.getD 1 "") → 0 < atoi (argv.getD 2 "") →
        maxMatrix < atoi (argv.getD 2 "") →
      progRun maxMatrix argv
        = errResult "ERROR: matrix dimension too large - overflow risk") := by
  refine ⟨?_, ?_, ?_, ?_⟩
  · intro h1
    simp only [progRun, parseArgs, if_pos h1]
  · intro h1 h2
    have h1' : ¬ argv.length < 3 := by omega
    simp only [progRun, parseArgs, if_neg h1', if_pos h2]
  · intro h1 h2 h3
    have h1' : ¬ argv.length < 3 := by omega
    have h2' : ¬ atoi (argv.getD 1 "") < 1 := by omega
    simp only [progRun, parseArgs, if_neg h1', if_neg h2', if_pos h3]
  · intro h1 h2 h3 h4
    have h1' : ¬ argv.length < 3 := by omega
    have h2' : ¬ atoi (argv.getD 1 "") < 1 := by omega
    have h3' : ¬ atoi (argv.getD 2 "") ≤ 0 := by omega
    simp only [progRun, parseArgs, if_neg h1', if_neg h2', if_neg h3', if_pos h4]

/-- Witness for C6: usage error, `iterations = 0`, `order = 0`, and an
oversized order, each exiting with code `1`, nothing allocated, nothing
launched. -/
theorem input_errors_exit_early_witness :
    progRun 46340 ["transpose"] = errResult "Usage: <# iterations> <matrix order>"
    ∧ progRun 46340 ["transpose", "0", "10"]
        = errResult "ERROR: iterations must be >= 1"
    ∧ progRun 46340 ["transpose", "10", "0"]
        = errResult "ERROR: Matrix Order must be greater than 0"
    ∧ progRun 46340 ["transpose", "10", "50000"]
        = errResult "ERROR: matrix dimension too large - overflow risk" :=
  ⟨(input_errors_exit_early 46340 ["transpose"]).1 (by decide),
   (input_errors_exit_early 46340 ["transpose", "0", "10"]).2.1 (by decide) (by decide),
   (input_errors_exit_early 46340 ["transpose", "10", "0"]).2.2.1
     (by decide) (by decide) (by decide),
   (input_errors_exit_early 46340 ["transpose", "10", "50000"]).2.2.2
     (by decide) (by decide) (by decide) (by decide)⟩

/-- C7: with validated inputs, the process exits `0` and reports
`Solution validates` iff the aggregate error is strictly below the
threshold `1.0e-8`; otherwise it exits `1` and the failure report carries
both the aggregate error and the threshold. -/
theorem validation_outcome (maxMatrix : ℤ) (argv : List String) (cfg : Config)
    (h : parseArgs maxMatrix argv = .ok cfg) :
    ((progRun maxMatrix argv).exitCode = 0
        ∧ (progRun maxMatrix argv).report = some .validates
      ↔ abserr cfg.order.toNat cfg.iterations.toNat
          (runBenchmark cfg.order.toNat cfg.tile_size.toNat cfg.iterations.toNat).B
            < epsilon)
    ∧ ((progRun maxMatrix argv).exitCode = 1
        ∧ (progRun maxMatrix argv).report
            = some (.failed (abserr cfg.order.toNat cfg.iterations.toNat
                (runBenchmark cfg.order.toNat cfg.tile_size.toNat
                  cfg.iterations.toNat).B) epsilon)
      ↔ ¬ abserr cfg.order.toNat cfg.iterations.toNat
          (runBenchmark cfg.order.toNat cfg.tile_size.toNat cfg.iterations.toNat).B
            < epsilon) := by
  simp only [progRun, h]
  split_ifs with hc
  · simp [hc]
  · simp [hc]

/-- Witness for C7 at `argv = [transpose, 1, 2, 1]`. -/
theorem validation_outcome_witness :
    ((progRun 46340 ["transpose", "1", "2", "1"]).exitCode = 0
        ∧ (progRun 46340 ["transpose", "1", "2", "1"]).report = some .validates
      ↔ abserr (2 : ℤ).toNat (1 : ℤ).toNat
          (runBenchmark (2 : ℤ).toNat (1 : ℤ).toNat (1 : ℤ).toNat).B < epsilon)
    ∧ ((progRun 46340 ["transpose", "1", "2", "1"]).exitCode = 1
        ∧ (progRun 46340 ["transpose", "1", "2", "1"]).report
            = some (.failed (abserr (2 : ℤ).toNat (1 : ℤ).toNat
                (runBenchmark (2 : ℤ).toNat (1 : ℤ).toNat (1 : ℤ).toNat).B) epsilon)
      ↔ ¬ abserr (2 : ℤ).toNat (1 : ℤ).toNat
          (runBenchmark (2 : ℤ).toNat (1 : ℤ).toNat (1 : ℤ).toNat).B < epsilon) :=
  validation_outcome 46340 ["transpose", "1", "2", "1"]
    { iterations := 1, order := 2, tile_size := 1, tileWarn := false } (by decide)

/-- C8 counterexample: with `order = 10` and supplied `tile_size = 33 > 32`,
the clamp to `order` happens before the warning check
(`if (tile_size > 32)` reads the already-clamped value), so no warning is
printed even though the supplied value exceeds `32`. -/
theorem tile_warn_counterexample :
    parseArgs 46340 ["transpose", "10", "10", "33"]
      = .ok { iterations := 10, order := 10, tile_size := 10, tileWarn := false } := by
  decide

/-- C8 (amended): an absent tile argument defaults to `32` with no warning;
a supplied value `<= 0` or `> order` is clamped to `order` (so
`order + 100` is clamped and the run proceeds); and the non-fatal warning
fires iff the *effective clamped* tile size exceeds `32`, not for every
supplied value `> 32`. -/
theorem tile_size_resolution (maxMatrix : ℤ) (argv : List String)
    (h1 : 1 ≤ atoi (argv.getD 1 "")) (h2 : 0 < atoi (argv.getD 2 ""))
    (h3 : atoi (argv.getD 2 "") ≤ maxMatrix) :
    (argv.length = 3 →
      parseArgs maxMatrix argv
        = .ok ⟨atoi (argv.getD 1 ""), atoi (argv.getD 2 ""), 32, false⟩)
    ∧ (argv.length = 4 →
      parseArgs maxMatrix argv
        = .ok ⟨atoi (argv.getD 1 ""), atoi (argv.getD 2 ""),
            clampTile (atoi (argv.getD 2 "")) (atoi (argv.getD 3 "")),
            decide (32 < clampTile (atoi (argv.getD 2 "")) (atoi (argv.getD 3 "")))⟩)
    ∧ ((atoi (argv.getD 3 "") ≤ 0 ∨ atoi (argv.getD 2 "") < atoi (argv.getD 3 "")) →
      clampTile (atoi (argv.getD 2 "")) (atoi (argv.getD 3 "")) = atoi (argv.getD 2 "")) := by
  have h1' : ¬ atoi (argv.getD 1 "") < 1 := by omega
  have h2' : ¬ atoi (argv.getD 2 "") ≤ 0 := by omega
  have h3' : ¬ maxMatrix < atoi (argv.getD 2 "") := by omega
  refine ⟨?_, ?_, ?_⟩
  · intro hlen
    have ha : ¬ argv.length < 3 := by omega
    have hb : ¬ 3 < argv.length := by omega
    simp only [parseArgs, if_neg ha, if_neg h1', if_neg h2', if_neg h3', if_neg hb]
  · intro hlen
    have ha : ¬ argv.length < 3 := by omega
    have hb : 3 < argv.length := by omega
    simp only [parseArgs, if_neg ha, if_neg h1', if_neg h2', if_neg h3', if_pos hb]
  · intro hc
    unfold clampTile
    split_ifs with hd he
    · rfl
    · rfl
    · rcases hc with hc | hc
      · omega
      · omega

/-- Witness for C8 (amended) at `argv = [transpose, 5, 40, 140]`:
`tile_size = order + 100` is clamped to `order = 40` and, the clamped value
exceeding `32`, the warning fires. -/
theorem tile_size_resolution_witness :
    parseArgs 46340 ["transpose", "5", "40", "140"]
      = .ok ⟨atoi (["transpose", "5", "40", "140"].getD 1 ""),
          atoi (["transpose", "5", "40", "140"].getD 2 ""),
          clampTile (atoi (["transpose", "5", "40", "140"].getD 2 ""))
            (atoi (["transpose", "5", "40", "140"].getD 3 "")),
          decide (32 < clampTile (atoi (["transpose", "5", "40", "140"].getD 2 ""))
            (atoi (["transpose", "5", "40", "140"].getD 3 "")))⟩ :=
  ((tile_size_resolution 46340 ["transpose", "5", "40", "140"]
    (by decide) (by decide) (by decide)).2.1) (by decide)

/-- C10 counterexample: a non-numeric `tile_size` parses to `0` and is
clamped to `order`; but with `order = 100 > 32` the clamped value then
triggers the `tile_size > 32` warning, so the clamping is not silent. -/
theorem nonnumeric_tile_warn_counterexample :
    atoi "abc" = 0
    ∧ parseArgs 46340 ["transpose", "10", "100", "abc"]
        = .ok { iterations := 10, order := 100, tile_size := 100, tileWarn := true } := by
  decide

/-- C10 (amended): an argument with no digit prefix parses to `0`; a
non-numeric iterations argument is rejected with the iterations message and
exit code `1`; a non-numeric order argument is rejected with the order
message and exit code `1`; a non-numeric tile_size argument parses to `0`
and is clamped to `order` with no error, the warning firing exactly when
the clamped value `order` exceeds `32`. -/
theorem nonnumeric_args (maxMatrix : ℤ) (argv : List String) (s : String) :
    ((∀ c ∈ s.data, ¬ c.isDigit ∧ c ≠ '+' ∧ c ≠ '-' ∧ ¬ isSpaceChar c) → atoi s = 0)
    ∧ (3 ≤ argv.length → atoi (argv.getD 1 "") = 0 →
        progRun maxMatrix argv = errResult "ERROR: iterations must be >= 1")
    ∧ (3 ≤ argv.length → 1 ≤ atoi (argv.getD 1 "") → atoi (argv.getD 2 "") = 0 →
        progRun maxMatrix argv = errResult "ERROR: Matrix Order must be greater than 0")
    ∧ (argv.length = 4 → 1 ≤ atoi (argv.getD 1 "") → 0 < atoi (argv.getD 2 "") →
        atoi (argv.getD 2 "") ≤ maxMatrix → atoi (argv.getD 3 "") = 0 →
        parseArgs maxMatrix argv
          = .ok ⟨atoi (argv.getD 1 ""), atoi (argv.getD 2 ""), atoi (argv.getD 2 ""),
              decide (32 < atoi (argv.getD 2 ""))⟩) := by
  refine ⟨?_, ?_, ?_, ?_⟩
  · intro hs
    unfold atoi
    have hdw : s.data.dropWhile isSpaceChar = s.data := by
      cases hd : s.data with
      | nil => rfl
      | cons c cs =>
        have hc := (hs c (hd ▸ List.mem_cons_self c cs)).2.2.2
        rw [List.dropWhile_cons, if_neg (by simp [hc])]
    rw [hdw]
    cases hd : s.data with
    | nil => rfl
    | cons c cs =>
      have hc := hs c (hd ▸ List.mem_cons_self c cs)
      show (if c = '-' then -(digitsVal cs 0 : ℤ)
        else if c = '+' then (digitsVal cs 0 : ℤ)
        else (digitsVal (c :: cs) 0 : ℤ)) = 0
      rw [if_neg hc.2.2.1, if_neg hc.2.1]
      have hz : digitsVal (c :: cs) 0 = 0 := by
        show (if c.isDigit then digitsVal cs (0 * 10 + (c.toNat - 48)) else 0) = 0
        rw [if_neg (by simpa using hc.1)]
      rw [hz]
      rfl
  · intro h1 h2
    exact (input_errors_exit_early maxMatrix argv).2.1 h1 (by omega)
  · intro h1 h2 h3
    exact (input_errors_exit_early maxMatrix argv).2.2.1 h1 h2 (by omega)
  · intro hlen h1 h2 h3 h4
    have heq := ((tile_size_resolution maxMatrix argv h1 h2 h3).2.1) hlen
    have hcl : clampTile (atoi (argv.getD 2 "")) (atoi (argv.getD 3 ""))
        = atoi (argv.getD 2 "") := by
      unfold clampTile
      rw [if_pos (by omega)]
    rw [heq, hcl]

/-- Witness for C10 (amended): `xyz` parses to `0` in each position. -/
theorem nonnumeric_args_witness :
    atoi "xyz" = 0
    ∧ progRun 46340 ["transpose", "xyz", "10"]
        = errResult "ERROR: iterations must be >= 1"
    ∧ progRun 46340 ["transpose", "10", "xyz"]
        = errResult "ERROR: Matrix Order must be greater than 0"
    ∧ parseArgs 46340 ["transpose", "10", "20", "xyz"]
        = .ok ⟨atoi (["transpose", "10", "20", "xyz"].getD 1 ""),
            atoi (["transpose", "10", "20", "xyz"].getD 2 ""),
            atoi (["transpose", "10", "20", "xyz"].getD 2 ""),
            decide (32 < atoi (["transpose", "10", "20", "xyz"].getD 2 ""))⟩ :=
  ⟨(nonnumeric_args 46340 [] "xyz").1 (by decide),
   (nonnumeric_args 46340 ["transpose", "xyz", "10"] "").2.1 (by decide) (by decide),
   (nonnumeric_args 46340 ["transpose", "10", "xyz"] "").2.2.1
     (by decide) (by decide) (by decide),
   (nonnumeric_args 46340 ["transpose", "10", "20", "xyz"] "").2.2.2
     (by decide) (by decide) (by decide) (by decide) (by decide)⟩

/-- C9: in the tiled path, an `order` that is not a multiple of `32` makes
validation print a warning without failing, and the run still completes
in bounds: every index the tiled kernel computes from
`width = (order/32)*32` stays strictly below `order²`, and no slot at or
beyond `order²` of either buffer is ever touched. -/
theorem tiled_path_warns_not_fails (maxMatrix : ℤ) (argv : List String)
    (s : State) (m order : ℕ) (p : ℕ × ℕ)
    (h1 : 3 ≤ argv.length) (h2 : 1 ≤ atoi (argv.getD 1 ""))
    (h3 : 0 < atoi (argv.getD 2 "")) (h4 : atoi (argv.getD 2 "") ≤ maxMatrix)
    (h5 : ¬ atoi (argv.getD 2 "") % 32 = 0) :
    parseArgsTiled maxMatrix argv
      = .ok (atoi (argv.getD 1 ""), atoi (argv.getD 2 ""), true)
    ∧ (p ∈ tiledCoords (order / 32) →
        p.1 * (order / 32 * tile_dim) + p.2 < order * order
        ∧ p.2 * (order / 32 * tile_dim) + p.1 < order * order)
    ∧ (order * order ≤ m →
        (tiledLaunch (order / 32) s).A m = s.A m
        ∧ (tiledLaunch (order / 32) s).B m = s.B m) := by
  refine ⟨?_, ?_, ?_⟩
  · have ha : ¬ argv.length < 3 := by omega
    have hb : ¬ atoi (argv.getD 1 "") < 1 := by omega
    have hc : ¬ atoi (argv.getD 2 "") ≤ 0 := by omega
    have hd : ¬ maxMatrix < atoi (argv.getD 2 "") := by omega
    simp only [parseArgsTiled, if_neg ha, if_neg hb, if_neg hc, if_neg hd]
    rw [decide_eq_true h5]
  · intro hp
    obtain ⟨hp1, hp2⟩ := mem_tiledCoords.mp hp
    have hwle : order / 32 * tile_dim ≤ order := by
      show order / 32 * 32 ≤ order
      exact Nat.div_mul_le_self order 32
    have hq1 : p.1 * (order / 32 * tile_dim) + p.2
        < (order / 32 * tile_dim) * (order / 32 * tile_dim) := mul_add_lt hp1 hp2
    have hq2 : p.2 * (order / 32 * tile_dim) + p.1
        < (order / 32 * tile_dim) * (order / 32 * tile_dim) := mul_add_lt hp2 hp1
    have hsq : (order / 32 * tile_dim) * (order / 32 * tile_dim) ≤ order * order :=
      Nat.mul_le_mul hwle hwle
    omega
  · intro hm
    rw [tiledLaunch_eq_runThreads]
    exact runThreads_frame (order / 32 * tile_dim) (tiledCoords (order / 32)) s m
      (le_trans (Nat.mul_le_mul (Nat.div_mul_le_self order 32) (Nat.div_mul_le_self order 32)) hm)

/-- Witness for C9 at `order = 33` (not a multiple of 32),
`argv = [transpose, 1, 33]`, unit `(0, 0)`, slot `1089 = 33²`. -/
theorem tiled_path_warns_not_fails_witness :
    parseArgsTiled 46340 ["transpose", "1", "33"] = .ok (1, 33, true)
    ∧ ((0, 0) ∈ tiledCoords (33 / 32) →
        0 * (33 / 32 * tile_dim) + 0 < 33 * 33
        ∧ 0 * (33 / 32 * tile_dim) + 0 < 33 * 33)
    ∧ (33 * 33 ≤ 1089 →
        (tiledLaunch (33 / 32) (initState 33)).A 1089 = (initState 33).A 1089
        ∧ (tiledLaunch (33 / 32) (initState 33)).B 1089 = (initState 33).B 1089) :=
  tiled_path_warns_not_fails 46340 ["transpose", "1", "33"] (initState 33) 1089 33 (0, 0)
    (by decide) (by decide) (by decide) (by decide) (by decide)

theorem measuredTrace_succ (n : ℕ) :
    measuredTrace (n + 1) = measuredTrace n ++ [Event.launch, Event.sync] := by
  simp [measuredTrace, List.range_succ]

theorem measuredTrace_count (n : ℕ) :
    (measuredTrace n).count Event.launch = n := by
  induction n with
  | zero => rfl
  | succ k ih => simp [measuredTrace_succ, List.count_append, ih]

theorem loop_decomp (n : ℕ) (hn : 1 ≤ n) :
    (List.range (n + 1)).flatMap loopBody
      = [Event.launch, Event.sync, Event.sync, Event.timerStart] ++ measuredTrace n := by
  induction n with
  | zero => omega
  | succ k ih =>
    rcases Nat.eq_zero_or_pos k with h0 | hk
    · subst h0
      rfl
    · have hne : ¬ (k + 1 = 1) := by omega
      rw [List.range_succ, List.flatMap_append, ih hk, measuredTrace_succ]
      simp [loopBody, hne]

/-- C2: the Timing Harness performs exactly `iterations + 1` launch cycles;
the timer starts once, immediately after the single warm-up cycle (exactly
one launch precedes the timer start) and before the launch of cycle 1; the
timer stop is the final event, after the last cycle's synchronization; and
the reported average equals the elapsed time divided by `iterations` (so
multiplying it back by `iterations` — not `iterations + 1` — recovers the
elapsed time). -/
theorem timing_harness (n : ℕ) (e : ℚ) (hn : 1 ≤ n) :
    (mainTrace n).count Event.launch = n + 1
    ∧ mainTrace n = [Event.launch, Event.sync, Event.sync, Event.timerStart]
        ++ measuredTrace n ++ [Event.timerStop]
    ∧ ((mainTrace n).takeWhile (fun ev => ev != Event.timerStart)).count Event.launch = 1
    ∧ (mainTrace n).getLast? = some Event.timerStop
    ∧ reportedAvg e n * n = e := by
  have hdec : mainTrace n = [Event.launch, Event.sync, Event.sync, Event.timerStart]
      ++ measuredTrace n ++ [Event.timerStop] := by
    rw [mainTrace, loop_decomp n hn, List.append_assoc]
  refine ⟨?_, hdec, ?_, ?_, ?_⟩
  · rw [hdec]
    simp [List.count_append, measuredTrace_count]
  · rw [hdec]
    show (List.takeWhile _ (Event.launch :: Event.sync :: Event.sync :: Event.timerStart
      :: (measuredTrace n ++ [Event.timerStop]))).count Event.launch = 1
    rw [List.takeWhile_cons, List.takeWhile_cons, List.takeWhile_cons, List.takeWhile_cons]
    rfl
  · rw [mainTrace]
    exact List.getLast?_concat _
  · rw [reportedAvg]
    have hne : (n : ℚ) ≠ 0 := by
      exact_mod_cast Nat.pos_iff_ne_zero.mp hn
    exact div_mul_cancel₀ e hne

/-- Witness for C2 at `iterations = 2`, `elapsed = 7`. -/
theorem timing_harness_witness :
    (mainTrace 2).count Event.launch = 2 + 1
    ∧ mainTrace 2 = [Event.launch, Event.sync, Event.sync, Event.timerStart]
        ++ measuredTrace 2 ++ [Event.timerStop]
    ∧ ((mainTrace 2).takeWhile (fun ev => ev != Event.timerStart)).count Event.launch = 1
    ∧ (mainTrace 2).getLast? = some Event.timerStop
    ∧ reportedAvg 7 2 * 2 = 7 :=
  timing_harness 2 7 (by decide)

end PRK
